import Mathlib

/-!
Verification of the tally-node traceability core (TAG grammar/validator,
scanner `parse`, Linkage Manager) and of the Doxygen documentation parser
(`DoxygenParser.parse_all`).

The TAG subsystem (validator, parse, Linkage Manager) is described by the
specification but its implementation file is not present in the repository
snapshot; those definitions are modelled from the specification text and are
marked `Modelled from the spec:` in their doc comments.  The Doxygen parser
definitions are translated from `src/docs/tools/parser.py` and
`src/docs/tools/models.py`.
-/

namespace TallyNode

/-- Character class test for the DOMAIN part of an identifier: an ASCII
uppercase letter. -/
def isUpperAZ (c : Char) : Bool := 'A' ≤ c && c ≤ 'Z'

/-- Character class test for the NUMBER part of an identifier: an ASCII
decimal digit. -/
def isDigit09 (c : Char) : Bool := '0' ≤ c && c ≤ '9'

/-- Modelled from the spec: the NUMBER part is exactly three decimal
digits. -/
def threeDigits : List Char → Bool
  | [a, b, c] => isDigit09 a && isDigit09 b && isDigit09 c
  | _ => false

/-- Modelled from the spec: after the first DOMAIN character, the rest of
the identifier is more uppercase letters up to a dash, then exactly three
digits. -/
def domainTail : List Char → Bool
  | [] => false
  | c :: rest => if c = '-' then threeDigits rest else isUpperAZ c && domainTail rest

/-- Modelled from the spec: anchored structural match of an identifier
against `SPEC-` followed by one-or-more uppercase letters, a dash, and
exactly three decimal digits, over the character list of the string. -/
def identifierMatchesChars : List Char → Bool
  | s :: p :: e :: c :: h :: d :: rest =>
      s = 'S' && p = 'P' && e = 'E' && c = 'C' && h = '-' &&
      isUpperAZ d && domainTail rest
  | _ => false

/-- Modelled from the spec: `identifier matches pattern` — a pure,
case-sensitive structural check anchored to the entire string (the absent
validator module of the repository). -/
def identifierMatches (s : String) : Bool := identifierMatchesChars s.data

/-- The specification's wording of the identifier shape, as a predicate on
strings: the literal `SPEC-`, then a non-empty run of uppercase letters,
then a dash, then exactly three decimal digits, covering the whole
string. -/
def IdentifierShape (s : String) : Prop :=
  ∃ d n : List Char,
    s.data = 'S' :: 'P' :: 'E' :: 'C' :: '-' :: (d ++ '-' :: n) ∧
    d ≠ [] ∧ (∀ c ∈ d, isUpperAZ c = true) ∧
    n.length = 3 ∧ (∀ c ∈ n, isDigit09 c = true)

/-- Whitespace test used by the parser when splitting a comment line into
tokens. -/
def isWs (c : Char) : Bool := c = ' ' || c = '\t'

/-- Accumulator worker for `tokenize`: `acc` is the current token read so
far, in reverse. -/
def tokenizeAux : List Char → List Char → List (List Char)
  | [], acc => if acc.isEmpty then [] else [acc.reverse]
  | c :: rest, acc =>
      if isWs c then
        if acc.isEmpty then tokenizeAux rest []
        else acc.reverse :: tokenizeAux rest []
      else tokenizeAux rest (c :: acc)

/-- Modelled from the spec: split a character list on whitespace into
non-empty tokens (the absent scanner module's tokenisation of the text
after the comment marker). -/
def tokenize (l : List Char) : List (List Char) := tokenizeAux l []

/-- TAG — an immutable value for one annotation occurrence: identifier,
relationship verb, source file path and 1-based line number (field names
follow the persisted database format). -/
structure TAG where
  spec_id : String
  verb : String
  file_path : String
  line : Nat
deriving DecidableEq, Repr

/-- Modelled from the spec: the fixed set of relationship verbs. -/
def validVerbs : List String := ["impl", "verify", "depends", "related"]

/-- Modelled from the spec: the default verb constant. -/
def defaultVerb : String := "impl"

/-- Modelled from the spec: select the verb from the tokens after the
identifier — a second token becomes the verb only when it is a member of
the valid verb set, otherwise the default applies. -/
def chooseVerb (more : List (List Char)) : String :=
  match more with
  | [] => defaultVerb
  | v :: _ => if String.mk v ∈ validVerbs then String.mk v else defaultVerb

/-- Modelled from the spec: the part of `parse` after the comment marker is
stripped — require the literal token `@SPEC`, take the next token as the
candidate identifier (silently failing when it does not match the
structural pattern), and apply the verb-selection rule to the remaining
tokens. -/
def parseAfterMarker (rest : List Char) (filePath : String)
    (lineNumber : Nat) : Option TAG :=
  match tokenize rest with
  | marker :: ident :: more =>
      if marker = "@SPEC".data then
        if identifierMatchesChars ident then
          some ⟨String.mk ident, chooseVerb more, filePath, lineNumber⟩
        else none
      else none
  | _ => none

/-- Modelled from the spec: `parse(commentText, filePath, lineNumber)` of
the absent validator module — trim leading whitespace, require the `#`
line-comment marker, strip it, and recover a TAG from the rest of the
line. -/
def parse (commentText filePath : String) (lineNumber : Nat) : Option TAG :=
  match commentText.data.dropWhile isWs with
  | [] => none
  | c :: rest =>
      if c = '#' then parseAfterMarker rest filePath lineNumber else none

/-- Linkage Database — the persisted state: an ordered collection of TAG
entries plus a derived map from file path to the identifiers referenced in
that file (an association list standing for the JSON object). -/
structure LinkDB where
  tags : List TAG
  files : List (String × List String)
deriving DecidableEq, Repr

/-- The canonical empty database: empty entry collection, empty file
index. -/
def emptyDB : LinkDB := ⟨[], []⟩

/-- Modelled from the spec: ensure the file-index bucket for `f` exists and
contains `id` (inserted if absent), used by `add`. -/
def bucketInsert : List (String × List String) → String → String →
    List (String × List String)
  | [], f, id => [(f, [id])]
  | (g, b) :: rest, f, id =>
      if g = f then (g, if id ∈ b then b else b ++ [id]) :: rest
      else (g, b) :: bucketInsert rest f id

/-- Modelled from the spec: remove `id` from the bucket for `f`, deleting
the bucket entirely if it becomes empty, used by `remove`. -/
def bucketRemove : List (String × List String) → String → String →
    List (String × List String)
  | [], _, _ => []
  | (g, b) :: rest, f, id =>
      if g = f then
        (if b.erase id = [] then rest else (g, b.erase id) :: rest)
      else (g, b) :: bucketRemove rest f id

/-- Modelled from the spec: delete the bucket for `f` outright, used by
`removeAllForFile`. -/
def bucketDelete : List (String × List String) → String →
    List (String × List String)
  | [], _ => []
  | (g, b) :: rest, f => if g = f then rest else (g, b) :: bucketDelete rest f

/-- Look up the bucket for a file path in the index. -/
def lookupBucket : List (String × List String) → String → Option (List String)
  | [], _ => none
  | (g, b) :: rest, f => if g = f then some b else lookupBucket rest f

/-- Modelled from the spec: `add(tag)` — append the 4-tuple if not already
present and ensure the file-index bucket for the tag's file contains the
identifier. -/
def addTag (db : LinkDB) (t : TAG) : LinkDB :=
  { tags := if t ∈ db.tags then db.tags else db.tags ++ [t],
    files := bucketInsert db.files t.file_path t.spec_id }

/-- Modelled from the spec: `remove(tag)` — remove the exact matching
4-tuple if present, remove the identifier from the file's index bucket
(deleting the bucket if it becomes empty); a no-op if the tag was
absent. -/
def removeTag (db : LinkDB) (t : TAG) : LinkDB :=
  if t ∈ db.tags then
    { tags := db.tags.erase t,
      files := bucketRemove db.files t.file_path t.spec_id }
  else db

/-- Modelled from the spec: `removeAllForFile(path)` — remove every entry
whose file equals `path` and delete that file's index bucket. -/
def removeAllForFile (db : LinkDB) (p : String) : LinkDB :=
  { tags := db.tags.filter (fun t => !decide (t.file_path = p)),
    files := bucketDelete db.files p }

/-- Modelled from the spec: `findOrphans(specExists)` — scan the entry
collection and keep every entry whose identifier fails the predicate,
re-evaluating the predicate on each entry. -/
def orphansIn (specExists : String → Bool) : List TAG → List TAG
  | [] => []
  | t :: rest =>
      if specExists t.spec_id then orphansIn specExists rest
      else t :: orphansIn specExists rest

/-- Modelled from the spec: the Linkage Manager's orphan query over the
stored entry collection. -/
def findOrphans (db : LinkDB) (specExists : String → Bool) : List TAG :=
  orphansIn specExists db.tags

/-- One mutating Linkage Manager operation. -/
inductive DBOp where
  | add (t : TAG)
  | remove (t : TAG)
  | removeFile (p : String)

/-- Apply one mutating operation to an in-memory database state. -/
def applyOp (db : LinkDB) : DBOp → LinkDB
  | .add t => addTag db t
  | .remove t => removeTag db t
  | .removeFile p => removeAllForFile db p

/-- Apply a finite sequence of mutating operations in order. -/
def applyOps (db : LinkDB) (ops : List DBOp) : LinkDB := ops.foldl applyOp db

/-- Database states reachable from the empty database by `add`, `remove`
and `removeAllForFile`. -/
inductive Reachable : LinkDB → Prop
  | empty : Reachable emptyDB
  | step (db : LinkDB) (op : DBOp) : Reachable db → Reachable (applyOp db op)

/-- The identifiers of the entries recorded for file `f` in the entry
collection. -/
def fileIds (tags : List TAG) (f : String) : List String :=
  (tags.filter (fun t => decide (t.file_path = f))).map TAG.spec_id

/-- The full two-sided consistency condition claimed by the specification,
as an executable check: every bucket is non-empty and contained in the
entry-collection identifiers for its file, and every entry's identifier
appears in its file's bucket. -/
def claimInvB (db : LinkDB) : Bool :=
  db.files.all (fun fb =>
    !fb.2.isEmpty && fb.2.all (fun id => decide (id ∈ fileIds db.tags fb.1))) &&
  db.tags.all (fun t =>
    match lookupBucket db.files t.file_path with
    | some b => decide (t.spec_id ∈ b)
    | none => false)


/-- The bucket side of the consistency invariant relative to a given entry
collection: every bucket is non-empty, duplicate-free, and each of its
identifiers is backed by an entry with that file path. -/
def BucketsOk (tags : List TAG) (files : List (String × List String)) : Prop :=
  ∀ fb ∈ files, fb.2 ≠ [] ∧ fb.2.Nodup ∧
    ∀ id ∈ fb.2, ∃ t ∈ tags, t.file_path = fb.1 ∧ t.spec_id = id

/-- The invariant actually maintained by the modelled Linkage Manager: the
entry collection is duplicate-free, the index has distinct file-path keys,
and every bucket is non-empty and backed by the entry collection. -/
def GoodDB (db : LinkDB) : Prop :=
  db.tags.Nodup ∧ (db.files.map Prod.fst).Nodup ∧ BucketsOk db.tags db.files

/-- A JSON-like value, standing for the content of the backing store. -/
inductive Json where
  | str (s : String)
  | num (n : Nat)
  | arr (elems : List Json)
  | obj (fields : List (String × Json))

/-- First field of the given name in a JSON object's field list. -/
def getField : List (String × Json) → String → Option Json
  | [], _ => none
  | (k, v) :: rest, key => if k = key then some v else getField rest key

/-- Modelled from the spec: decode one persisted entry record with fields
`spec_id`, `verb`, `file_path` and `line`. -/
def decodeEntry : Json → Option TAG
  | .obj fs =>
      match getField fs "spec_id", getField fs "verb",
            getField fs "file_path", getField fs "line" with
      | some (.str i), some (.str v), some (.str f), some (.num n) =>
          some ⟨i, v, f, n⟩
      | _, _, _, _ => none
  | _ => none

/-- Decode the `tags` array elementwise, failing if any element fails. -/
def decodeEntryList : List Json → Option (List TAG)
  | [] => some []
  | j :: rest =>
      match decodeEntry j, decodeEntryList rest with
      | some t, some ts => some (t :: ts)
      | _, _ => none

/-- Decode one file-index bucket: an array of identifier strings. -/
def decodeBucket : List Json → Option (List String)
  | [] => some []
  | .str s :: rest =>
      match decodeBucket rest with
      | some ss => some (s :: ss)
      | none => none
  | _ :: _ => none

/-- Decode the `files` object: file path to identifier list. -/
def decodeFiles : List (String × Json) → Option (List (String × List String))
  | [] => some []
  | (k, .arr es) :: rest =>
      match decodeBucket es, decodeFiles rest with
      | some b, some fs => some ((k, b) :: fs)
      | _, _ => none
  | _ :: _ => none

/-- Modelled from the spec: structural decoding of the persisted database —
a record with the two top-level fields `tags` (array of entry records) and
`files` (object of identifier arrays); any structural mismatch fails. -/
def decodeDB (j : Json) : Option LinkDB :=
  match j with
  | .obj fs =>
      match getField fs "tags", getField fs "files" with
      | some (.arr ts), some (.obj bs) =>
          match decodeEntryList ts, decodeFiles bs with
          | some tags, some files => some ⟨tags, files⟩
          | _, _ => none
      | _, _ => none
  | _ => none

/-- Encode one entry in the persisted format. -/
def encodeEntry (t : TAG) : Json :=
  .obj [("spec_id", .str t.spec_id), ("verb", .str t.verb),
        ("file_path", .str t.file_path), ("line", .num t.line)]

/-- Modelled from the spec: encode the full database state as the persisted
record with `tags` and `files` fields. -/
def encodeDB (db : LinkDB) : Json :=
  .obj [("tags", .arr (db.tags.map encodeEntry)),
        ("files", .obj (db.files.map fun fb => (fb.1, .arr (fb.2.map Json.str))))]

/-- State of the backing store as seen by `load`. -/
inductive Store where
  | absent
  | unreadable
  | content (j : Json)

/-- Modelled from the spec: `load` — absent, unreadable or structurally
invalid storage is replaced by the canonical empty database; no error is
propagated (the function is total). -/
def load : Store → LinkDB
  | .absent => emptyDB
  | .unreadable => emptyDB
  | .content j => (decodeDB j).getD emptyDB

/-- A JSON value that is structurally a database record: an object carrying
both expected top-level fields. -/
def IsDBRecord (j : Json) : Prop :=
  ∃ fs tj fj, j = Json.obj fs ∧
    getField fs "tags" = some tj ∧ getField fs "files" = some fj

/-- Stages of the atomic rewrite of the backing store, in order: before the
temporary file is written, while it is being written, after it is complete,
and after the final rename into place. -/
inductive WriteStage where
  | beforeTmp
  | duringTmp
  | afterTmp
  | afterRename
deriving DecidableEq

/-- Modelled from the spec: the content of the main storage location at
each stage of a rewrite of `newDb` over a store holding `old` — the main
location is untouched until the rename, which installs the complete encoded
new state in one step. -/
def mainAt (old : Store) (newDb : LinkDB) : WriteStage → Store
  | .beforeTmp => old
  | .duringTmp => old
  | .afterTmp => old
  | .afterRename => .content (encodeDB newDb)

/-! Definitions translated from `src/docs/tools/models.py` and
`src/docs/tools/parser.py` (Doxygen documentation parser). -/

/-- LayerType from `models.py`: the five architecture layers, in enum
declaration order. -/
inductive LayerType where
  | common
  | presentation
  | application
  | domain
  | infrastructure
deriving DecidableEq, Repr

/-- The `value` string of each LayerType member. -/
def LayerType.value : LayerType → String
  | .common => "0_common"
  | .presentation => "1_presentation"
  | .application => "2_application"
  | .domain => "3_domain"
  | .infrastructure => "4_infrastructure"

/-- LayerType members in enum declaration order, as iterated by
`for layer in LayerType`. -/
def layerTypesInOrder : List LayerType :=
  [.common, .presentation, .application, .domain, .infrastructure]

/-- Display name of a layer as computed in `_classify_by_layers` by
`layer.value.replace("_", " ").title()`. -/
def layerDisplayName : LayerType → String
  | .common => "0 Common"
  | .presentation => "1 Presentation"
  | .application => "2 Application"
  | .domain => "3 Domain"
  | .infrastructure => "4 Infrastructure"

/-- One `member` element of a Doxygen compound, with its kind attribute,
name and optional location line. -/
structure XmlMember where
  kind : String
  name : String
  line : Option Nat
deriving DecidableEq, Repr

/-- One `compound` element of a Doxygen XML file: kind attribute, name
text, optional location attributes and member elements. -/
structure XmlCompound where
  kind : String
  name : String
  locationFile : Option String
  locationLine : Option Nat
  members : List XmlMember
deriving DecidableEq, Repr

/-- One XML file of the configured directory: its file name and its parse
result — `none` stands for a file on which XML parsing raises. -/
structure XmlFile where
  name : String
  parsed : Option (List XmlCompound)
deriving DecidableEq, Repr

/-- FunctionInfo from `models.py`, restricted to the fields the parser
fills for top-level functions. -/
structure FunctionInfo where
  name : String
  file_path : String
  line_number : Nat
  layer : Option LayerType
  component : Option String
deriving DecidableEq, Repr

/-- ClassInfo from `models.py`, restricted to the fields the parser fills
for classes and structs. -/
structure ClassInfo where
  name : String
  kind : String
  file_path : String
  line_number : Nat
  layer : Option LayerType
  component : Option String
  methods : List String
  fields : List String
deriving DecidableEq, Repr

/-- ComponentInfo from `models.py`: functions and classes grouped under one
component of a layer. -/
structure ComponentInfo where
  name : String
  layer : LayerType
  functions : List FunctionInfo
  classes : List ClassInfo
deriving DecidableEq, Repr

/-- LayerInfo from `models.py`: one architecture layer and its
components. -/
structure LayerInfo where
  layer_type : LayerType
  name : String
  components : List ComponentInfo
deriving DecidableEq, Repr

/-- ProjectInfo from `models.py`, restricted to the fields `parse_all`
touches. -/
structure ProjectInfo where
  name : String
  layers : List LayerInfo
  all_functions : List FunctionInfo
  all_classes : List ClassInfo
deriving DecidableEq, Repr

/-- The ProjectInfo created in `DoxygenParser.__init__`:
`ProjectInfo(name="Tally Node")` with all collections empty. -/
def initialProjectInfo : ProjectInfo := ⟨"Tally Node", [], [], []⟩

/-- Split a path on `/` (after normalising `\` to `/`), as in
`_extract_layer_and_component`. -/
def splitSlash : List Char → List Char → List String
  | [], acc => [String.mk acc.reverse]
  | c :: rest, acc =>
      if c = '/' || c = '\\' then String.mk acc.reverse :: splitSlash rest []
      else splitSlash rest (c :: acc)

/-- `_extract_layer_and_component`: scan the path parts left to right for a
part equal to some layer's value; the following part, when present, is the
component. -/
def extractLayerAndComponent (file_path : String) :
    Option LayerType × Option String :=
  go (splitSlash file_path.data [])
where
  go : List String → Option LayerType × Option String
    | [] => (none, none)
    | p :: rest =>
        match layerTypesInOrder.find? (fun lt => lt.value == p) with
        | some lt => (some lt, rest.head?)
        | none => go rest

/-- `_parse_class`: build a ClassInfo from a class/struct compound — the
location, when present, fills file path, line number (attribute default 0)
and the layer/component classification; members of kind `function` become
methods and of kind `variable` become fields. -/
def parseClassCompound (c : XmlCompound) : ClassInfo :=
  let lc := match c.locationFile with
    | some fp => (fp, c.locationLine.getD 0, extractLayerAndComponent fp)
    | none => ("", 0, (none, none))
  { name := c.name
    kind := c.kind
    file_path := lc.1
    line_number := lc.2.1
    layer := lc.2.2.1
    component := lc.2.2.2
    methods := (c.members.filter (fun m => m.kind == "function")).map XmlMember.name
    fields := (c.members.filter (fun m => m.kind == "variable")).map XmlMember.name }

/-- `_parse_file` and `_parse_function`: every member of kind `function` of
a file compound becomes a FunctionInfo carrying the file's path and
layer/component classification. -/
def parseFileCompound (c : XmlCompound) : List FunctionInfo :=
  let lc := extractLayerAndComponent c.name
  (c.members.filter (fun m => m.kind == "function")).map fun m =>
    { name := m.name
      file_path := c.name
      line_number := m.line.getD 0
      layer := lc.1
      component := lc.2 }

/-- The compound dispatch of `_parse_xml_file`: class/struct compounds with
a non-empty name are appended to `all_classes`, file compounds with a
non-empty name contribute their functions to `all_functions`, anything
else is ignored. -/
def parseCompound (acc : ProjectInfo) (c : XmlCompound) : ProjectInfo :=
  if c.kind = "class" ∨ c.kind = "struct" then
    if c.name = "" then acc
    else { acc with all_classes := acc.all_classes ++ [parseClassCompound c] }
  else if c.kind = "file" then
    if c.name = "" then acc
    else { acc with all_functions := acc.all_functions ++ parseFileCompound c }
  else acc

/-- `_parse_xml_file`: a file whose XML parse raises contributes nothing
(the exception is caught and logged); otherwise each compound is
processed in order. -/
def parseXmlFile (acc : ProjectInfo) (f : XmlFile) : ProjectInfo :=
  match f.parsed with
  | none => acc
  | some cs => cs.foldl parseCompound acc

/-- The `find_or_create_component` update: apply `up` to the component
named `cname` of the layer, creating it (empty) first when absent. -/
def updateComponent (comps : List ComponentInfo) (lt : LayerType)
    (cnameOpt : Option String) (up : ComponentInfo → ComponentInfo) :
    List ComponentInfo :=
  let cname := cnameOpt.getD (lt.value ++ "_misc")
  if comps.any (fun c => c.name == cname) then
    comps.map fun c => if c.name == cname then up c else c
  else comps ++ [up ⟨cname, lt, [], []⟩]

/-- The per-layer part of `_classify_by_layers`: distribute first the
functions and then the classes whose layer matches into the layer's
components. -/
def layerFor (lt : LayerType) (fns : List FunctionInfo)
    (clss : List ClassInfo) : LayerInfo :=
  let comps1 := (fns.filter (fun f => f.layer == some lt)).foldl
    (fun comps f => updateComponent comps lt f.component
      (fun c => { c with functions := c.functions ++ [f] })) []
  let comps2 := (clss.filter (fun c => c.layer == some lt)).foldl
    (fun comps cl => updateComponent comps lt cl.component
      (fun c => { c with classes := c.classes ++ [cl] })) comps1
  ⟨lt, layerDisplayName lt, comps2⟩

/-- `_classify_by_layers`: append one LayerInfo per LayerType, in enum
declaration order, each holding its classified functions and classes. -/
def classifyByLayers (p : ProjectInfo) : ProjectInfo :=
  { p with layers :=
      p.layers ++ layerTypesInOrder.map fun lt =>
        layerFor lt p.all_functions p.all_classes }

/-- Whether the XML directory contains `index.xml`, as tested by
`index_file.exists()`. -/
def hasIndexXml (dir : List XmlFile) : Bool :=
  dir.any fun f => f.name == "index.xml"

/-- `DoxygenParser.parse_all` over the directory listing: return the
initial ProjectInfo when `index.xml` is missing; otherwise process every
XML file except `index.xml` in order and classify by layers.  The function
is total: no input makes it fail. -/
def parse_all (dir : List XmlFile) : ProjectInfo :=
  if hasIndexXml dir then
    classifyByLayers
      (dir.foldl
        (fun acc f => if f.name == "index.xml" then acc else parseXmlFile acc f)
        initialProjectInfo)
  else initialProjectInfo

/-- Concrete TAG used by the counterexamples: identifier `SPEC-A-001` in
file `f.py`, line 1. -/
def tagLine1 : TAG := ⟨"SPEC-A-001", "impl", "f.py", 1⟩

/-- Concrete TAG with the same identifier and file as `tagLine1` but line
2. -/
def tagLine2 : TAG := ⟨"SPEC-A-001", "impl", "f.py", 2⟩

/-- Concrete TAG with a different identifier and file, used by the orphan
query instance. -/
def tagOther : TAG := ⟨"SPEC-B-002", "impl", "g.py", 3⟩

/-! Theorems. -/

theorem threeDigits_iff (n : List Char) :
    threeDigits n = true ↔ n.length = 3 ∧ ∀ c ∈ n, isDigit09 c = true := by
  match n with
  | [] => simp [threeDigits]
  | [a] => simp [threeDigits]
  | [a, b] => simp [threeDigits]
  | [a, b, c] =>
      simp only [threeDigits, Bool.and_eq_true, List.length_cons, List.length_nil,
        List.mem_cons, List.not_mem_nil, or_false, forall_eq_or_imp, forall_eq]
      tauto
  | a :: b :: c :: d :: rest => simp [threeDigits]

theorem domainTail_iff (l : List Char) :
    domainTail l = true ↔
      ∃ d n, l = d ++ '-' :: n ∧ (∀ c ∈ d, isUpperAZ c = true) ∧
        threeDigits n = true := by
  induction l with
  | nil =>
      simp only [domainTail, Bool.false_eq_true, false_iff]
      rintro ⟨d, n, h, -, -⟩
      cases d <;> simp at h
  | cons c rest ih =>
      by_cases hc : c = '-'
      · subst hc
        simp only [domainTail, if_pos rfl]
        constructor
        · intro h
          exact ⟨[], rest, rfl, by simp, h⟩
        · rintro ⟨d, n, h, hd, hn⟩
          match d with
          | [] =>
              simp only [List.nil_append, List.cons.injEq] at h
              rw [h.2]; exact hn
          | e :: d' =>
              simp only [List.cons_append, List.cons.injEq] at h
              have : isUpperAZ '-' = true := h.1 ▸ hd e (by simp)
              simp [isUpperAZ] at this
      · rw [domainTail, if_neg hc]
        constructor
        · intro h
          rw [Bool.and_eq_true] at h
          obtain ⟨d, n, hrest, hd, hn⟩ := ih.mp h.2
          refine ⟨c :: d, n, by simp [hrest], ?_, hn⟩
          intro x hx
          rcases List.mem_cons.mp hx with hx | hx
          · exact hx ▸ h.1
          · exact hd x hx
        · rintro ⟨d, n, h, hd, hn⟩
          match d with
          | [] =>
              simp only [List.nil_append, List.cons.injEq] at h
              exact absurd h.1 hc
          | e :: d' =>
              simp only [List.cons_append, List.cons.injEq] at h
              rw [Bool.and_eq_true]
              refine ⟨h.1 ▸ hd e (by simp), ih.mpr ⟨d', n, h.2, ?_, hn⟩⟩
              intro x hx
              exact hd x (by simp [hx])

theorem identifierMatchesChars_iff (l : List Char) :
    identifierMatchesChars l = true ↔
      ∃ d n, l = 'S' :: 'P' :: 'E' :: 'C' :: '-' :: (d ++ '-' :: n) ∧
        d ≠ [] ∧ (∀ c ∈ d, isUpperAZ c = true) ∧
        n.length = 3 ∧ (∀ c ∈ n, isDigit09 c = true) := by
  match l with
  | [] => simp [identifierMatchesChars]
  | [a] => simp [identifierMatchesChars]
  | [a, b] => simp [identifierMatchesChars]
  | [a, b, c] => simp [identifierMatchesChars]
  | [a, b, c, d] => simp [identifierMatchesChars]
  | [a, b, c, d, e] => simp [identifierMatchesChars]
  | a :: b :: c :: d :: e :: f :: rest =>
      simp only [identifierMatchesChars, Bool.and_eq_true, decide_eq_true_eq]
      constructor
      · rintro ⟨⟨⟨⟨⟨⟨ha, hb⟩, hc⟩, hd⟩, he⟩, hf⟩, htail⟩
        subst ha; subst hb; subst hc; subst hd; subst he
        obtain ⟨dom, num, hrest, hdom, hnum⟩ := (domainTail_iff rest).mp htail
        refine ⟨f :: dom, num, by simp [hrest], by simp, ?_,
          ((threeDigits_iff num).mp hnum).1, ((threeDigits_iff num).mp hnum).2⟩
        intro x hx
        rcases List.mem_cons.mp hx with hx | hx
        · exact hx ▸ hf
        · exact hdom x hx
      · rintro ⟨dom, num, hl, hne, hdom, hlen, hnum⟩
        match dom with
        | [] => exact absurd rfl hne
        | g :: dom' =>
            simp only [List.cons_append, List.cons.injEq] at hl
            obtain ⟨ha, hb, hc, hd, he, hg, hrest⟩ := hl
            subst ha; subst hb; subst hc; subst hd; subst he
            refine ⟨⟨⟨⟨⟨⟨rfl, rfl⟩, rfl⟩, rfl⟩, rfl⟩,
              hg ▸ hdom g (by simp)⟩, ?_⟩
            exact (domainTail_iff rest).mpr ⟨dom', num, hrest,
              fun x hx => hdom x (by simp [hx]),
              (threeDigits_iff num).mpr ⟨hlen, hnum⟩⟩


theorem tokenizeAux_token (tok : List Char) (hws : ∀ c ∈ tok, isWs c = false) :
    ∀ rest acc, tokenizeAux (tok ++ rest) acc = tokenizeAux rest (tok.reverse ++ acc) := by
  induction tok with
  | nil => intro rest acc; simp
  | cons c ts ih =>
      intro rest acc
      rw [List.cons_append, tokenizeAux, if_neg (by simp [hws c (by simp)])]
      rw [ih (fun x hx => hws x (by simp [hx])) rest (c :: acc)]
      rw [List.reverse_cons, List.append_assoc, List.singleton_append]

theorem tokenize_ws_cons (c : Char) (l : List Char) (h : isWs c = true) :
    tokenize (c :: l) = tokenize l := by
  rw [tokenize, tokenizeAux, if_pos h, if_pos List.isEmpty_nil]
  rfl

theorem tokenize_token_append (tok l : List Char) (hne : tok ≠ [])
    (hws : ∀ c ∈ tok, isWs c = false) :
    tokenize (tok ++ ' ' :: l) = tok :: tokenize l := by
  rw [tokenize, tokenizeAux_token tok hws (' ' :: l) [], List.append_nil]
  rw [tokenizeAux, if_pos (by rfl)]
  rw [if_neg (by simp [List.isEmpty_iff, hne]), List.reverse_reverse]
  rfl

theorem tokenize_single_token (tok : List Char) (hne : tok ≠ [])
    (hws : ∀ c ∈ tok, isWs c = false) :
    tokenize tok = [tok] := by
  rw [tokenize]
  conv_lhs => rw [show tok = tok ++ [] from (List.append_nil tok).symm]
  rw [tokenizeAux_token tok hws [] [], List.append_nil, tokenizeAux]
  rw [if_neg (by simp [List.isEmpty_iff, hne]), List.reverse_reverse]

theorem keys_bucketInsert_of_mem (f id : String) :
    ∀ l, f ∈ l.map Prod.fst →
      (bucketInsert l f id).map Prod.fst = l.map Prod.fst := by
  intro l
  induction l with
  | nil => simp
  | cons gb rest ih =>
      obtain ⟨g, b⟩ := gb
      intro hmem
      rw [bucketInsert]
      by_cases hg : g = f
      · rw [if_pos hg]; simp
      · rw [if_neg hg]
        simp only [List.map_cons]
        rw [ih ?_]
        simp only [List.map_cons, List.mem_cons] at hmem
        exact hmem.resolve_left fun hEq => hg hEq.symm

theorem bucketInsert_of_not_mem (f id : String) :
    ∀ l, f ∉ l.map Prod.fst → bucketInsert l f id = l ++ [(f, [id])] := by
  intro l
  induction l with
  | nil => intro _; rfl
  | cons gb rest ih =>
      obtain ⟨g, b⟩ := gb
      intro hmem
      simp only [List.map_cons, List.mem_cons, not_or] at hmem
      rw [bucketInsert, if_neg fun hEq => hmem.1 hEq.symm, ih hmem.2,
        List.cons_append]

theorem bucketsOk_bucketInsert (tags tags' : List TAG) (f id : String)
    (hsub : ∀ e ∈ tags, e ∈ tags')
    (hnew : ∃ u ∈ tags', u.file_path = f ∧ u.spec_id = id) :
    ∀ l, BucketsOk tags l → BucketsOk tags' (bucketInsert l f id) := by
  intro l
  induction l with
  | nil =>
      intro _ fb hfb
      rw [bucketInsert] at hfb
      simp only [List.mem_singleton] at hfb
      subst hfb
      refine ⟨by simp, by simp, ?_⟩
      intro x hx
      simp only [List.mem_singleton] at hx
      subst hx
      exact hnew
  | cons gb rest ih =>
      obtain ⟨g, b⟩ := gb
      intro hOk
      have hrest : BucketsOk tags rest := fun fb h => hOk fb (by simp [h])
      intro fb hfb
      rw [bucketInsert] at hfb
      by_cases hg : g = f
      · rw [if_pos hg] at hfb
        rcases List.mem_cons.mp hfb with hfb | hfb
        · subst hfb
          obtain ⟨hne, hnd, hids⟩ := hOk (g, b) (by simp)
          by_cases hid : id ∈ b
          · simp only [if_pos hid]
            exact ⟨hne, hnd, fun x hx =>
              (hids x hx).imp fun t ht => ⟨hsub t ht.1, ht.2⟩⟩
          · simp only [if_neg hid]
            refine ⟨by simp, ?_, ?_⟩
            · rw [List.nodup_append]
              exact ⟨hnd, List.nodup_singleton id, by
                intro x hx hx'
                simp only [List.mem_singleton] at hx'
                exact hid (hx' ▸ hx)⟩
            · intro x hx
              rcases List.mem_append.mp hx with hx | hx
              · exact (hids x hx).imp fun t ht => ⟨hsub t ht.1, ht.2⟩
              · simp only [List.mem_singleton] at hx
                subst hx
                obtain ⟨u, hu, hu1, hu2⟩ := hnew
                exact ⟨u, hu, by rw [hu1, hg], hu2⟩
        · obtain ⟨h1, h2, h3⟩ := hrest fb hfb
          exact ⟨h1, h2, fun x hx =>
            (h3 x hx).imp fun t ht => ⟨hsub t ht.1, ht.2⟩⟩
      · rw [if_neg hg] at hfb
        rcases List.mem_cons.mp hfb with hfb | hfb
        · subst hfb
          obtain ⟨hne, hnd, hids⟩ := hOk (g, b) (by simp)
          exact ⟨hne, hnd, fun x hx =>
            (hids x hx).imp fun t ht => ⟨hsub t ht.1, ht.2⟩⟩
        · exact ih hrest fb hfb

theorem keys_bucketRemove_subset (f id : String) :
    ∀ l, (bucketRemove l f id).map Prod.fst ⊆ l.map Prod.fst := by
  intro l
  induction l with
  | nil => simp [bucketRemove]
  | cons gb rest ih =>
      obtain ⟨g, b⟩ := gb
      rw [bucketRemove]
      by_cases hg : g = f
      · rw [if_pos hg]
        by_cases hbe : b.erase id = []
        · rw [if_pos hbe]
          exact fun x hx => by simp [hx]
        · rw [if_neg hbe]; simp
      · rw [if_neg hg]
        simp only [List.map_cons]
        exact List.cons_subset_cons g ih

theorem keys_nodup_bucketRemove (f id : String) :
    ∀ l, (l.map Prod.fst).Nodup → ((bucketRemove l f id).map Prod.fst).Nodup := by
  intro l
  induction l with
  | nil => intro h; rw [bucketRemove]; exact h
  | cons gb rest ih =>
      obtain ⟨g, b⟩ := gb
      intro h
      simp only [List.map_cons, List.nodup_cons] at h
      rw [bucketRemove]
      by_cases hg : g = f
      · rw [if_pos hg]
        by_cases hbe : b.erase id = []
        · rw [if_pos hbe]; exact h.2
        · rw [if_neg hbe]
          simp only [List.map_cons, List.nodup_cons]
          exact h
      · rw [if_neg hg]
        simp only [List.map_cons, List.nodup_cons]
        exact ⟨fun hx => h.1 (keys_bucketRemove_subset f id rest hx), ih h.2⟩

theorem bucketsOk_bucketRemove (tags tags' : List TAG) (f id : String)
    (hsup : ∀ g x, ¬(g = f ∧ x = id) →
      (∃ e ∈ tags, e.file_path = g ∧ e.spec_id = x) →
      ∃ e ∈ tags', e.file_path = g ∧ e.spec_id = x) :
    ∀ l, (l.map Prod.fst).Nodup → BucketsOk tags l →
      BucketsOk tags' (bucketRemove l f id) := by
  intro l
  induction l with
  | nil =>
      intro _ _ fb hfb
      simp [bucketRemove] at hfb
  | cons gb rest ih =>
      obtain ⟨g, b⟩ := gb
      intro hkeys hOk
      simp only [List.map_cons, List.nodup_cons] at hkeys
      have hrest : BucketsOk tags rest := fun fb h => hOk fb (by simp [h])
      rw [bucketRemove]
      by_cases hg : g = f
      · rw [if_pos hg]
        have hrest' : BucketsOk tags' rest := by
          intro fb hfb
          obtain ⟨h1, h2, h3⟩ := hrest fb hfb
          refine ⟨h1, h2, fun x hx => ?_⟩
          have hfbf : fb.1 ≠ f := fun hEq => hkeys.1 (by
            rw [hg, ← hEq]
            exact List.mem_map_of_mem Prod.fst hfb)
          exact hsup fb.1 x (fun hc => hfbf hc.1) (h3 x hx)
        by_cases hbe : b.erase id = []
        · rw [if_pos hbe]; exact hrest'
        · rw [if_neg hbe]
          intro fb hfb
          rcases List.mem_cons.mp hfb with hfb | hfb
          · subst hfb
            obtain ⟨hne, hnd, hids⟩ := hOk (g, b) (by simp)
            refine ⟨hbe, hnd.erase id, fun x hx => ?_⟩
            obtain ⟨hxid, hxb⟩ := (List.Nodup.mem_erase_iff hnd).mp hx
            exact hsup g x (fun hc => hxid hc.2) (hids x hxb)
          · exact hrest' fb hfb
      · rw [if_neg hg]
        intro fb hfb
        rcases List.mem_cons.mp hfb with hfb | hfb
        · subst hfb
          obtain ⟨hne, hnd, hids⟩ := hOk (g, b) (by simp)
          exact ⟨hne, hnd, fun x hx =>
            hsup g x (fun hc => hg hc.1) (hids x hx)⟩
        · exact ih hkeys.2 hrest fb hfb

theorem mem_bucketDelete (p : String) :
    ∀ l, (l.map Prod.fst).Nodup →
      ∀ fb ∈ bucketDelete l p, fb ∈ l ∧ fb.1 ≠ p := by
  intro l
  induction l with
  | nil => intro _ fb hfb; simp [bucketDelete] at hfb
  | cons gb rest ih =>
      obtain ⟨g, b⟩ := gb
      intro hkeys fb hfb
      simp only [List.map_cons, List.nodup_cons] at hkeys
      rw [bucketDelete] at hfb
      by_cases hg : g = p
      · rw [if_pos hg] at hfb
        refine ⟨by simp [hfb], fun hEq => ?_⟩
        exact hkeys.1 (by rw [hg, ← hEq]; exact List.mem_map_of_mem Prod.fst hfb)
      · rw [if_neg hg] at hfb
        rcases List.mem_cons.mp hfb with hfb | hfb
        · subst hfb
          exact ⟨by simp, hg⟩
        · obtain ⟨h1, h2⟩ := ih hkeys.2 fb hfb
          exact ⟨by simp [h1], h2⟩

theorem keys_bucketDelete_subset (p : String) :
    ∀ l, (bucketDelete l p).map Prod.fst ⊆ l.map Prod.fst := by
  intro l
  induction l with
  | nil => simp [bucketDelete]
  | cons gb rest ih =>
      obtain ⟨g, b⟩ := gb
      rw [bucketDelete]
      by_cases hg : g = p
      · rw [if_pos hg]
        exact fun x hx => by simp [hx]
      · rw [if_neg hg]
        simp only [List.map_cons]
        exact List.cons_subset_cons g ih

theorem keys_nodup_bucketDelete (p : String) :
    ∀ l, (l.map Prod.fst).Nodup → ((bucketDelete l p).map Prod.fst).Nodup := by
  intro l
  induction l with
  | nil => intro h; rw [bucketDelete]; exact h
  | cons gb rest ih =>
      obtain ⟨g, b⟩ := gb
      intro h
      simp only [List.map_cons, List.nodup_cons] at h
      rw [bucketDelete]
      by_cases hg : g = p
      · rw [if_pos hg]; exact h.2
      · rw [if_neg hg]
        simp only [List.map_cons, List.nodup_cons]
        exact ⟨fun hx => h.1 (keys_bucketDelete_subset p rest hx), ih h.2⟩

theorem goodDB_addTag (db : LinkDB) (t : TAG) (h : GoodDB db) :
    GoodDB (addTag db t) := by
  obtain ⟨hnd, hkeys, hok⟩ := h
  refine ⟨?_, ?_, ?_⟩
  · rw [addTag]
    by_cases ht : t ∈ db.tags
    · simpa [ht] using hnd
    · simp only [ht, if_false]
      rw [List.nodup_append]
      exact ⟨hnd, List.nodup_singleton t, by
        intro x hx hx'
        simp only [List.mem_singleton] at hx'
        exact ht (hx' ▸ hx)⟩
  · rw [addTag]
    by_cases hf : t.file_path ∈ db.files.map Prod.fst
    · simpa [keys_bucketInsert_of_mem _ _ _ hf] using hkeys
    · rw [bucketInsert_of_not_mem _ _ _ hf, List.map_append]
      rw [List.nodup_append]
      exact ⟨hkeys, by simp, by
        intro x hx hx'
        simp only [List.map_cons, List.map_nil, List.mem_singleton] at hx'
        exact hf (hx' ▸ hx)⟩
  · refine bucketsOk_bucketInsert db.tags (addTag db t).tags _ _ ?_ ?_ _ hok
    · intro e he
      rw [addTag]
      by_cases ht : t ∈ db.tags
      · simpa [ht] using he
      · simp only [ht, if_false]
        exact List.mem_append_left _ he
    · refine ⟨t, ?_, rfl, rfl⟩
      rw [addTag]
      by_cases ht : t ∈ db.tags
      · simp only [if_pos ht]; exact ht
      · simp [ht]

theorem goodDB_removeTag (db : LinkDB) (t : TAG) (h : GoodDB db) :
    GoodDB (removeTag db t) := by
  rw [removeTag]
  by_cases ht : t ∈ db.tags
  · rw [if_pos ht]
    refine ⟨h.1.erase t, keys_nodup_bucketRemove _ _ _ h.2.1, ?_⟩
    refine bucketsOk_bucketRemove db.tags _ t.file_path t.spec_id ?_ _ h.2.1 h.2.2
    intro g x hgx ⟨e, he, he1, he2⟩
    have het : e ≠ t := by
      intro hEq
      exact hgx ⟨by rw [← he1, hEq], by rw [← he2, hEq]⟩
    exact ⟨e, (List.mem_erase_of_ne het).mpr he, he1, he2⟩
  · rw [if_neg ht]; exact h

theorem goodDB_removeAllForFile (db : LinkDB) (p : String) (h : GoodDB db) :
    GoodDB (removeAllForFile db p) := by
  refine ⟨h.1.filter _, keys_nodup_bucketDelete _ _ h.2.1, ?_⟩
  intro fb hfb
  obtain ⟨hmem, hne⟩ := mem_bucketDelete p db.files h.2.1 fb hfb
  obtain ⟨h1, h2, h3⟩ := h.2.2 fb hmem
  refine ⟨h1, h2, fun x hx => ?_⟩
  obtain ⟨e, he, he1, he2⟩ := h3 x hx
  refine ⟨e, ?_, he1, he2⟩
  rw [removeAllForFile]
  simp only [List.mem_filter, Bool.not_eq_eq_eq_not, Bool.not_true,
    decide_eq_false_iff_not]
  exact ⟨he, fun hEq => hne (by rw [← he1, hEq])⟩

theorem goodDB_applyOp (db : LinkDB) (op : DBOp) (h : GoodDB db) :
    GoodDB (applyOp db op) := by
  cases op with
  | add t => exact goodDB_addTag db t h
  | remove t => exact goodDB_removeTag db t h
  | removeFile p => exact goodDB_removeAllForFile db p h

theorem reachable_goodDB (db : LinkDB) (h : Reachable db) : GoodDB db := by
  induction h with
  | empty => exact ⟨List.nodup_nil, by simp [emptyDB], fun fb hfb => by
      simp [emptyDB] at hfb⟩
  | step db op _ ih => exact goodDB_applyOp db op ih

theorem lookupBucket_bucketInsert (f id : String) :
    ∀ l, lookupBucket (bucketInsert l f id) f =
      some ((lookupBucket l f).elim [id] fun b => if id ∈ b then b else b ++ [id]) := by
  intro l
  induction l with
  | nil => simp [bucketInsert, lookupBucket]
  | cons gb rest ih =>
      obtain ⟨g, b⟩ := gb
      rw [bucketInsert, lookupBucket]
      by_cases hg : g = f
      · rw [if_pos hg, lookupBucket, if_pos hg, if_pos hg]
        rfl
      · rw [if_neg hg, lookupBucket, if_neg hg, if_neg hg]
        exact ih

theorem lookupBucket_mem :
    ∀ (l : List (String × List String)) (f : String) (b : List String),
      lookupBucket l f = some b → (f, b) ∈ l := by
  intro l
  induction l with
  | nil => intro f b h; simp [lookupBucket] at h
  | cons gb rest ih =>
      obtain ⟨g, bb⟩ := gb
      intro f b h
      rw [lookupBucket] at h
      by_cases hg : g = f
      · rw [if_pos hg] at h
        simp only [Option.some.injEq] at h
        subst hg; subst h
        exact List.mem_cons_self _ _
      · rw [if_neg hg] at h
        exact List.mem_cons_of_mem _ (ih f b h)

theorem mem_tags_addTag (db : LinkDB) (t : TAG) : t ∈ (addTag db t).tags := by
  rw [addTag]
  by_cases ht : t ∈ db.tags
  · simp only [if_pos ht]; exact ht
  · simp [ht]

theorem bucketRemove_bucketInsert (f id : String) :
    ∀ l, (∀ fb ∈ l, fb.1 = f → id ∉ fb.2 ∧ fb.2 ≠ []) →
      bucketRemove (bucketInsert l f id) f id = l := by
  intro l
  induction l with
  | nil =>
      intro _
      rw [bucketInsert, bucketRemove, if_pos rfl, if_pos (by simp)]
  | cons gb rest ih =>
      obtain ⟨g, b⟩ := gb
      intro h
      rw [bucketInsert]
      by_cases hg : g = f
      · rw [if_pos hg]
        obtain ⟨hid, hbne⟩ := h (g, b) (by simp) hg
        rw [if_neg hid, bucketRemove, if_pos hg]
        have herase : (b ++ [id]).erase id = b := by
          rw [List.erase_append_right _ hid, List.erase_cons_head,
            List.append_nil]
        rw [herase, if_neg hbne]
      · rw [if_neg hg, bucketRemove, if_neg hg,
          ih fun fb hfb => h fb (by simp [hfb])]

theorem orphansIn_eq_filter (p : String → Bool) :
    ∀ l, orphansIn p l = l.filter fun t => !p t.spec_id := by
  intro l
  induction l with
  | nil => rfl
  | cons t rest ih =>
      rw [orphansIn, List.filter_cons]
      by_cases hp : p t.spec_id = true
      · simp [hp, ih]
      · simp only [Bool.not_eq_true] at hp
        simp [hp, ih]

theorem decodeEntry_encodeEntry (t : TAG) :
    decodeEntry (encodeEntry t) = some t := rfl

theorem decodeEntryList_map (ts : List TAG) :
    decodeEntryList (ts.map encodeEntry) = some ts := by
  induction ts with
  | nil => rfl
  | cons t rest ih =>
      rw [List.map_cons, decodeEntryList, decodeEntry_encodeEntry, ih]

theorem decodeBucket_map (ids : List String) :
    decodeBucket (ids.map Json.str) = some ids := by
  induction ids with
  | nil => rfl
  | cons i rest ih => rw [List.map_cons, decodeBucket, ih]

theorem decodeFiles_map (fs : List (String × List String)) :
    decodeFiles (fs.map fun fb => (fb.1, Json.arr (fb.2.map Json.str))) =
      some fs := by
  induction fs with
  | nil => rfl
  | cons fb rest ih =>
      rw [List.map_cons, decodeFiles, decodeBucket_map, ih]

theorem decodeDB_encodeDB (db : LinkDB) : decodeDB (encodeDB db) = some db := by
  obtain ⟨tags, files⟩ := db
  show (match decodeEntryList (tags.map encodeEntry),
      decodeFiles (files.map fun fb => (fb.1, Json.arr (fb.2.map Json.str))) with
    | some tags, some files => some (⟨tags, files⟩ : LinkDB)
    | _, _ => none) = some ⟨tags, files⟩
  rw [decodeEntryList_map, decodeFiles_map]

theorem parseCompound_name_layers (acc : ProjectInfo) (c : XmlCompound) :
    (parseCompound acc c).name = acc.name ∧
    (parseCompound acc c).layers = acc.layers := by
  rw [parseCompound]
  split_ifs <;> exact ⟨rfl, rfl⟩

theorem foldCompounds_name_layers (cs : List XmlCompound) (acc : ProjectInfo) :
    (cs.foldl parseCompound acc).name = acc.name ∧
    (cs.foldl parseCompound acc).layers = acc.layers := by
  induction cs generalizing acc with
  | nil => exact ⟨rfl, rfl⟩
  | cons c rest ih =>
      rw [List.foldl_cons]
      obtain ⟨h1, h2⟩ := ih (parseCompound acc c)
      obtain ⟨h3, h4⟩ := parseCompound_name_layers acc c
      exact ⟨h1.trans h3, h2.trans h4⟩

theorem parseXmlFile_name_layers (acc : ProjectInfo) (f : XmlFile) :
    (parseXmlFile acc f).name = acc.name ∧
    (parseXmlFile acc f).layers = acc.layers := by
  rw [parseXmlFile]
  cases f.parsed with
  | none => exact ⟨rfl, rfl⟩
  | some cs => exact foldCompounds_name_layers cs acc

theorem foldXml_name_layers (dir : List XmlFile) (acc : ProjectInfo) :
    (dir.foldl (fun acc f =>
        if f.name == "index.xml" then acc else parseXmlFile acc f) acc).name =
      acc.name ∧
    (dir.foldl (fun acc f =>
        if f.name == "index.xml" then acc else parseXmlFile acc f) acc).layers =
      acc.layers := by
  induction dir generalizing acc with
  | nil => exact ⟨rfl, rfl⟩
  | cons f rest ih =>
      rw [List.foldl_cons]
      by_cases hf : (f.name == "index.xml") = true
      · rw [if_pos hf]; exact ih acc
      · rw [if_neg hf]
        obtain ⟨h1, h2⟩ := ih (parseXmlFile acc f)
        obtain ⟨h3, h4⟩ := parseXmlFile_name_layers acc f
        exact ⟨h1.trans h3, h2.trans h4⟩

/-! Claim theorems. -/

/-- C1 counterexample: from the empty database, add the SPEC-A-001 tag at
f.py line 1, add the same identifier at line 2, then remove the line-1 tag.
The line-2 entry is still in the entry collection, but the file index has no
bucket for f.py at all, so the claimed two-sided bucket/entry equality fails
after this operation sequence (the executable check `claimInvB` is false). -/
theorem consistency_claim_counterexample :
    claimInvB (applyOps emptyDB
      [DBOp.add tagLine1, DBOp.add tagLine2, DBOp.remove tagLine1]) = false ∧
    tagLine2 ∈ (applyOps emptyDB
      [DBOp.add tagLine1, DBOp.add tagLine2, DBOp.remove tagLine1]).tags ∧
    lookupBucket (applyOps emptyDB
      [DBOp.add tagLine1, DBOp.add tagLine2, DBOp.remove tagLine1]).files
      tagLine2.file_path = none :=
  ⟨rfl, by decide, rfl⟩

/-- C1 (amended): after any finite sequence of add, remove and
removeAllForFile operations from the empty Linkage Database, every file path
present in the file index has a non-empty bucket, and every identifier in
that bucket is the identifier of some entry with that file path.  The
converse inclusion — every entry identifier appearing in the bucket — is the
part the counterexample refutes. -/
theorem index_buckets_sound (db : LinkDB) (hr : Reachable db)
    (f : String) (b : List String) (hb : lookupBucket db.files f = some b) :
    b ≠ [] ∧ ∀ id ∈ b, ∃ t ∈ db.tags, t.file_path = f ∧ t.spec_id = id := by
  obtain ⟨-, -, hok⟩ := reachable_goodDB db hr
  obtain ⟨h1, -, h3⟩ := hok (f, b) (lookupBucket_mem db.files f b hb)
  exact ⟨h1, h3⟩

/-- C1 witness: the amended statement evaluated in the reachable state
obtained by a single add. -/
theorem index_buckets_sound_witness :
    ["SPEC-A-001"] ≠ [] ∧ ∀ id ∈ ["SPEC-A-001"],
      ∃ t ∈ (addTag emptyDB tagLine1).tags,
        t.file_path = "f.py" ∧ t.spec_id = id :=
  index_buckets_sound (addTag emptyDB tagLine1)
    (Reachable.step emptyDB (DBOp.add tagLine1) Reachable.empty)
    "f.py" ["SPEC-A-001"] rfl

/-- C2: when the rewrite of the backing store is interrupted at any stage
before the final rename, a load of the main storage location returns exactly
the database state from before the write; and at every stage the main
location yields on load either the old state or the complete new state —
never a partial structure — because the new state is written to a temporary
location and installed by the rename as the final step. -/
theorem atomic_write_crash_safety (old : Store) (newDb : LinkDB)
    (st st2 : WriteStage) (h : st ≠ WriteStage.afterRename) :
    load (mainAt old newDb st) = load old ∧
    (load (mainAt old newDb st2) = load old ∨
     load (mainAt old newDb st2) = newDb) := by
  constructor
  · cases st with
    | beforeTmp => rfl
    | duringTmp => rfl
    | afterTmp => rfl
    | afterRename => exact absurd rfl h
  · cases st2 with
    | beforeTmp => exact Or.inl rfl
    | duringTmp => exact Or.inl rfl
    | afterTmp => exact Or.inl rfl
    | afterRename =>
        refine Or.inr ?_
        show (decodeDB (encodeDB newDb)).getD emptyDB = newDb
        rw [decodeDB_encodeDB]
        rfl

/-- C2 witness: the crash-safety statement evaluated for a write of the
empty database over an absent store, interrupted before the temporary file
is written, with the post-rename stage as the observed one. -/
theorem atomic_write_crash_safety_witness :
    load (mainAt Store.absent emptyDB WriteStage.beforeTmp) =
      load Store.absent ∧
    (load (mainAt Store.absent emptyDB WriteStage.afterRename) =
      load Store.absent ∨
     load (mainAt Store.absent emptyDB WriteStage.afterRename) = emptyDB) :=
  atomic_write_crash_safety Store.absent emptyDB WriteStage.beforeTmp
    WriteStage.afterRename (by decide)

/-- C3: for every TAG and every reachable database state, adding the TAG
twice leaves the entry collection with exactly one entry equal to its
4-tuple and leaves its identifier occurring exactly once in the file-index
bucket for its file — the second add is a no-op, not a duplicate insert. -/
theorem add_idempotent (db : LinkDB) (t : TAG) (hr : Reachable db) :
    (addTag (addTag db t) t).tags.count t = 1 ∧
    ∃ b, lookupBucket (addTag (addTag db t) t).files t.file_path = some b ∧
      b.count t.spec_id = 1 := by
  have hg1 : GoodDB (addTag db t) := goodDB_addTag db t (reachable_goodDB db hr)
  constructor
  · exact List.count_eq_one_of_mem (goodDB_addTag _ t hg1).1 (mem_tags_addTag _ t)
  · obtain ⟨b1, hb1, hid1⟩ : ∃ b1,
        lookupBucket (addTag db t).files t.file_path = some b1 ∧
          t.spec_id ∈ b1 := by
      rw [show (addTag db t).files = bucketInsert db.files t.file_path t.spec_id
        from rfl, lookupBucket_bucketInsert]
      refine ⟨_, rfl, ?_⟩
      cases lookupBucket db.files t.file_path with
      | none => simp
      | some b =>
          by_cases hid : t.spec_id ∈ b
          · simp only [Option.elim, if_pos hid]; exact hid
          · simp [Option.elim, hid]
    refine ⟨b1, ?_, ?_⟩
    · rw [show (addTag (addTag db t) t).files =
        bucketInsert (addTag db t).files t.file_path t.spec_id from rfl,
        lookupBucket_bucketInsert, hb1]
      simp [Option.elim, hid1]
    · obtain ⟨-, hnd, -⟩ := hg1.2.2 (t.file_path, b1)
        (lookupBucket_mem _ _ _ hb1)
      exact List.count_eq_one_of_mem hnd hid1

/-- C3 witness: double add of the concrete tag into the empty database. -/
theorem add_idempotent_witness :
    (addTag (addTag emptyDB tagLine1) tagLine1).tags.count tagLine1 = 1 ∧
    ∃ b, lookupBucket (addTag (addTag emptyDB tagLine1) tagLine1).files
        tagLine1.file_path = some b ∧ b.count tagLine1.spec_id = 1 :=
  add_idempotent emptyDB tagLine1 Reachable.empty

/-- C4 counterexample: the state holding only SPEC-A-001 at f.py line 1 is
reachable, the line-2 tag's 4-tuple is absent from it, yet add of the line-2
tag followed by remove of it does not restore the state: the remove also
deletes the f.py index bucket that the line-1 entry still needs. -/
theorem roundtrip_claim_counterexample :
    Reachable (addTag emptyDB tagLine1) ∧
    tagLine2 ∉ (addTag emptyDB tagLine1).tags ∧
    removeTag (addTag (addTag emptyDB tagLine1) tagLine2) tagLine2 ≠
      addTag emptyDB tagLine1 :=
  ⟨Reachable.step emptyDB (DBOp.add tagLine1) Reachable.empty,
    by decide, by decide⟩

/-- C4 (amended): for every reachable state in which no entry carries the
tag's identifier-and-file-path pair (a stronger absence than that of the
exact 4-tuple), add followed by remove restores the database exactly, the
emptied file-index bucket being removed rather than left empty. -/
theorem add_remove_roundtrip (db : LinkDB) (t : TAG) (hr : Reachable db)
    (hfresh : ∀ e ∈ db.tags,
      ¬(e.spec_id = t.spec_id ∧ e.file_path = t.file_path)) :
    removeTag (addTag db t) t = db := by
  have hg := reachable_goodDB db hr
  have ht : t ∉ db.tags := fun hmem => hfresh t hmem ⟨rfl, rfl⟩
  have hmem1 : t ∈ (addTag db t).tags := mem_tags_addTag db t
  rw [removeTag, if_pos hmem1]
  have h2 : (addTag db t).tags.erase t = db.tags := by
    have htags1 : (addTag db t).tags = db.tags ++ [t] := by
      show (if t ∈ db.tags then db.tags else db.tags ++ [t]) = db.tags ++ [t]
      rw [if_neg ht]
    rw [htags1, List.erase_append_right _ ht, List.erase_cons_head,
      List.append_nil]
  have h3 : bucketRemove (addTag db t).files t.file_path t.spec_id =
      db.files := by
    show bucketRemove (bucketInsert db.files t.file_path t.spec_id)
      t.file_path t.spec_id = db.files
    apply bucketRemove_bucketInsert
    intro fb hfb hfbf
    obtain ⟨hne, -, hids⟩ := hg.2.2 fb hfb
    refine ⟨fun hidmem => ?_, hne⟩
    obtain ⟨e, he, he1, he2⟩ := hids t.spec_id hidmem
    exact hfresh e he ⟨he2, by rw [he1, hfbf]⟩
  rw [h2, h3]

/-- C4 witness: the amended round-trip evaluated at the empty database. -/
theorem add_remove_roundtrip_witness :
    removeTag (addTag emptyDB tagLine1) tagLine1 = emptyDB :=
  add_remove_roundtrip emptyDB tagLine1 Reachable.empty
    (by intro e he; simp [emptyDB] at he)

/-- C5: the identifier structural check accepts a string exactly when it is
the literal SPEC-, then one or more uppercase letters, then a dash, then
exactly three decimal digits, anchored to the whole string; in particular it
accepts SPEC-AUTH-001 and, being case-sensitive and exact on the digit
count, rejects spec-auth-001 and SPEC-AUTH-1. -/
theorem identifierMatches_characterisation (s : String) :
    (identifierMatches s = true ↔ IdentifierShape s) ∧
    identifierMatches "SPEC-AUTH-001" = true ∧
    identifierMatches "spec-auth-001" = false ∧
    identifierMatches "SPEC-AUTH-1" = false :=
  ⟨identifierMatchesChars_iff s.data, by decide, by decide, by decide⟩

theorem parse_hash (commentText filePath : String) (n : Nat)
    (rest : List Char)
    (h : commentText.data.dropWhile isWs = '#' :: rest) :
    parse commentText filePath n = parseAfterMarker rest filePath n := by
  unfold parse
  rw [h]
  simp

/-- C6: parsing the plain comment line yields identifier SPEC-AUTH-001 with
the default verb impl; and in general, for any structurally valid identifier
token followed by a second token, the second token becomes the verb exactly
when it belongs to the valid verb set, and is otherwise ignored in favour of
the default — never causing a parse failure. -/
theorem parse_verb_selection (path : String) (n : Nat) (ident v : List Char)
    (hid : identifierMatchesChars ident = true)
    (hine : ident ≠ []) (hiws : ∀ c ∈ ident, isWs c = false)
    (hvne : v ≠ []) (hvws : ∀ c ∈ v, isWs c = false) :
    parse "# @SPEC SPEC-AUTH-001" path 1 =
      some ⟨"SPEC-AUTH-001", "impl", path, 1⟩ ∧
    parse (String.mk ('#' :: ' ' ::
        ("@SPEC".data ++ ' ' :: (ident ++ ' ' :: v)))) path n =
      some ⟨String.mk ident,
        if String.mk v ∈ validVerbs then String.mk v else defaultVerb,
        path, n⟩ := by
  refine ⟨rfl, ?_⟩
  have hdrop : (String.mk ('#' :: ' ' ::
      ("@SPEC".data ++ ' ' :: (ident ++ ' ' :: v)))).data.dropWhile isWs =
      '#' :: ' ' :: ("@SPEC".data ++ ' ' :: (ident ++ ' ' :: v)) := by
    rw [show (String.mk ('#' :: ' ' ::
      ("@SPEC".data ++ ' ' :: (ident ++ ' ' :: v)))).data =
      '#' :: ' ' :: ("@SPEC".data ++ ' ' :: (ident ++ ' ' :: v)) from rfl]
    rw [List.dropWhile_cons]
    simp [isWs]
  rw [parse_hash _ _ _ _ hdrop]
  have htok : tokenize (' ' :: ("@SPEC".data ++ ' ' :: (ident ++ ' ' :: v))) =
      ["@SPEC".data, ident, v] := by
    rw [tokenize_ws_cons _ _ (by decide),
      tokenize_token_append "@SPEC".data _ (by decide) (by decide),
      tokenize_token_append ident _ hine hiws,
      tokenize_single_token v hvne hvws]
  unfold parseAfterMarker
  rw [htok]
  simp only [if_pos rfl, if_pos hid, hid, if_true]
  rfl

/-- C6 witness: the two parse facts at the concrete inputs of the
specification, with the unrecognised second token bogus. -/
theorem parse_verb_selection_witness :
    parse "# @SPEC SPEC-AUTH-001" "app.py" 1 =
      some ⟨"SPEC-AUTH-001", "impl", "app.py", 1⟩ ∧
    parse (String.mk ('#' :: ' ' :: ("@SPEC".data ++ ' ' ::
        ("SPEC-AUTH-001".data ++ ' ' :: "bogus".data)))) "app.py" 5 =
      some ⟨String.mk "SPEC-AUTH-001".data,
        if String.mk "bogus".data ∈ validVerbs then String.mk "bogus".data
        else defaultVerb, "app.py", 5⟩ :=
  parse_verb_selection "app.py" 5 "SPEC-AUTH-001".data "bogus".data
    (by decide) (by decide) (by decide) (by decide) (by decide)

/-- C7: load returns the canonical empty database whenever the backing
store is absent, unreadable, or not structurally a record with the two
expected top-level fields; being a total function into database states, it
propagates no error in any of these cases. -/
theorem load_self_healing (j : Json) (hrec : ¬ IsDBRecord j) :
    load Store.absent = emptyDB ∧ load Store.unreadable = emptyDB ∧
    load (Store.content j) = emptyDB := by
  refine ⟨rfl, rfl, ?_⟩
  cases j with
  | str s => rfl
  | num n => rfl
  | arr es => rfl
  | obj fs =>
      show (decodeDB (Json.obj fs)).getD emptyDB = emptyDB
      rcases htags : getField fs "tags" with - | tj
      · have hd : decodeDB (Json.obj fs) = none := by
          show (match getField fs "tags", getField fs "files" with
            | some (Json.arr ts), some (Json.obj bs) =>
                match decodeEntryList ts, decodeFiles bs with
                | some tags, some files => some (⟨tags, files⟩ : LinkDB)
                | _, _ => none
            | _, _ => none) = none
          rw [htags]
        rw [hd]
        rfl
      · rcases hfiles : getField fs "files" with - | fj
        · have hd : decodeDB (Json.obj fs) = none := by
            show (match getField fs "tags", getField fs "files" with
              | some (Json.arr ts), some (Json.obj bs) =>
                  match decodeEntryList ts, decodeFiles bs with
                  | some tags, some files => some (⟨tags, files⟩ : LinkDB)
                  | _, _ => none
              | _, _ => none) = none
            rw [htags, hfiles]
            cases tj <;> rfl
          rw [hd]
          rfl
        · exact absurd ⟨fs, tj, fj, rfl, htags, hfiles⟩ hrec

/-- C7 witness: a store whose content is a bare string is not a database
record, and load self-heals it to the empty database. -/
theorem load_self_healing_witness :
    load Store.absent = emptyDB ∧ load Store.unreadable = emptyDB ∧
    load (Store.content (Json.str "not a database")) = emptyDB :=
  load_self_healing (Json.str "not a database") (by
    rintro ⟨fs, tj, fj, h, -, -⟩
    cases h)

/-- C8: findOrphans returns exactly the entries whose identifier fails the
supplied predicate — it equals a pointwise filter of the entry collection by
the negated predicate, recomputed from the given predicate and state on
every call; in the two-identifier instance where the predicate accepts
SPEC-A-001 and rejects SPEC-B-002, it returns exactly the SPEC-B-002
entry. -/
theorem findOrphans_characterisation (p : String → Bool) (db : LinkDB) :
    (∀ t, t ∈ findOrphans db p ↔ t ∈ db.tags ∧ p t.spec_id = false) ∧
    findOrphans db p = db.tags.filter (fun t => !p t.spec_id) ∧
    findOrphans ⟨[tagLine1, tagOther],
        [("f.py", ["SPEC-A-001"]), ("g.py", ["SPEC-B-002"])]⟩
      (fun s => s == "SPEC-A-001") = [tagOther] := by
  have hf := orphansIn_eq_filter p db.tags
  refine ⟨?_, hf, by decide⟩
  intro t
  rw [show findOrphans db p = orphansIn p db.tags from rfl, hf,
    List.mem_filter]
  simp

/-- C9: parse_all — a total function over any directory contents — returns
the initial empty ProjectInfo immediately when index.xml is absent; a file
whose XML parse fails is caught and contributes nothing without aborting the
remaining files; and the result's name is always Tally Node. -/
theorem parse_all_error_handling (dir pre post : List XmlFile)
    (bad : XmlFile) (hbp : bad.parsed = none)
    (hbn : bad.name ≠ "index.xml") :
    (hasIndexXml dir = false → parse_all dir = initialProjectInfo) ∧
    (parse_all dir).name = "Tally Node" ∧
    parse_all (pre ++ bad :: post) = parse_all (pre ++ post) := by
  refine ⟨?_, ?_, ?_⟩
  · intro h
    rw [parse_all, if_neg (by simp [h])]
  · by_cases h : hasIndexXml dir = true
    · rw [parse_all, if_pos h]
      show (dir.foldl (fun acc f =>
        if f.name == "index.xml" then acc else parseXmlFile acc f)
        initialProjectInfo).name = "Tally Node"
      rw [(foldXml_name_layers dir initialProjectInfo).1]
      rfl
    · rw [parse_all, if_neg h]
      rfl
  · have hidx : hasIndexXml (pre ++ bad :: post) = hasIndexXml (pre ++ post) := by
      have hb : (bad.name == "index.xml") = false := beq_eq_false_iff_ne.mpr hbn
      simp only [hasIndexXml, List.any_append, List.any_cons, hb, Bool.false_or]
    have hfold : ∀ acc : ProjectInfo,
        (pre ++ bad :: post).foldl (fun acc f =>
          if f.name == "index.xml" then acc else parseXmlFile acc f) acc =
        (pre ++ post).foldl (fun acc f =>
          if f.name == "index.xml" then acc else parseXmlFile acc f) acc := by
      intro acc
      rw [List.foldl_append, List.foldl_cons, List.foldl_append]
      have hstep : (if bad.name == "index.xml" then
          pre.foldl (fun acc f =>
            if f.name == "index.xml" then acc else parseXmlFile acc f) acc
        else parseXmlFile (pre.foldl (fun acc f =>
            if f.name == "index.xml" then acc else parseXmlFile acc f) acc) bad) =
          pre.foldl (fun acc f =>
            if f.name == "index.xml" then acc else parseXmlFile acc f) acc := by
        rw [if_neg (by simp [hbn]), parseXmlFile, hbp]
      rw [hstep]
    rw [parse_all, parse_all, hidx]
    by_cases h2 : hasIndexXml (pre ++ post) = true
    · rw [if_pos h2, if_pos h2, hfold]
    · rw [if_neg h2, if_neg h2]

/-- C9 witness: empty directory for the index-absent and name clauses, and
an unparsable broken.xml next to index.xml for the isolation clause. -/
theorem parse_all_error_handling_witness :
    (hasIndexXml [] = false → parse_all [] = initialProjectInfo) ∧
    (parse_all []).name = "Tally Node" ∧
    parse_all ([⟨"index.xml", some []⟩] ++ ⟨"broken.xml", none⟩ :: []) =
      parse_all ([⟨"index.xml", some []⟩] ++ []) :=
  parse_all_error_handling [] [⟨"index.xml", some []⟩] []
    ⟨"broken.xml", none⟩ rfl (by decide)

theorem classifyByLayers_layer_types (q : ProjectInfo) (h : q.layers = []) :
    (classifyByLayers q).layers.map LayerInfo.layer_type =
      layerTypesInOrder := by
  show (q.layers ++ layerTypesInOrder.map fun lt =>
    layerFor lt q.all_functions q.all_classes).map LayerInfo.layer_type =
    layerTypesInOrder
  rw [h, List.nil_append, List.map_map]
  rfl

/-- C10: when the directory contains index.xml, parse_all returns layers
that are exactly one LayerInfo per LayerType in enum declaration order —
five entries even when nothing was parsed; when index.xml is absent the
layers list is empty. -/
theorem parse_all_layers (dir : List XmlFile)
    (hyes : hasIndexXml dir = true) (dir2 : List XmlFile)
    (hno : hasIndexXml dir2 = false) :
    (parse_all dir).layers.map LayerInfo.layer_type = layerTypesInOrder ∧
    (parse_all dir2).layers = [] := by
  constructor
  · rw [parse_all, if_pos hyes]
    exact classifyByLayers_layer_types _
      (foldXml_name_layers dir initialProjectInfo).2
  · rw [parse_all, if_neg (by simp [hno])]
    rfl

/-- C10 witness: a directory holding only index.xml yields the five layers
in order; the empty directory yields no layers. -/
theorem parse_all_layers_witness :
    (parse_all [⟨"index.xml", some []⟩]).layers.map LayerInfo.layer_type =
      layerTypesInOrder ∧
    (parse_all []).layers = [] :=
  parse_all_layers [⟨"index.xml", some []⟩] (by decide) [] (by decide)

end TallyNode
